import Mathlib

/-!
Shallow embedding of the sheet-normalization and aggregation pipeline of
`src/app.py` (a pandas/Streamlit application), together with theorems that
settle the frozen claims about its specification.

Modelling conventions:
* A spreadsheet / DataFrame cell is `Cell := Option String`: `none` is a
  missing value (pandas `NaN`), `some s` is a textual value.  Numeric
  spreadsheet cells are represented by their textual form, since the first
  operation the program applies to the designated numeric columns is
  `astype(str)`.
* Floating-point values produced by the coercion step are modelled exactly:
  `Val` is `nan`, a signed infinity, or a rational number.  Rounding of
  decimal literals to binary floating point is not modelled (parsed values
  are kept as exact rationals); none of the claims depends on rounding.
* `pandas` column operations become list operations, and fallible pandas
  operations (raising `KeyError` / `IndexError` / `ValueError`) return
  `Except String`.
-/

namespace CU

/-- A DataFrame cell: `none` models pandas `NaN` (missing), `some s` text. -/
abbrev Cell := Option String

/-! ### Python string helpers used by the source -/

/-- Characters treated as whitespace by Python's `str.strip()` and by the
regular-expression class `\s` (ASCII whitespace plus the no-break space;
rarer Unicode space characters are not modelled). -/
def pyIsSpace (c : Char) : Bool :=
  c.toNat = 32 || c.toNat = 9 || c.toNat = 10 || c.toNat = 13 ||
  c.toNat = 11 || c.toNat = 12 || c.toNat = 160

/-- Drop leading characters satisfying `pyIsSpace` (list form). -/
def dropLead (l : List Char) : List Char := l.dropWhile pyIsSpace

/-- Python `str.strip()` on a character list: remove leading and trailing
whitespace. -/
def stripList (l : List Char) : List Char :=
  ((dropLead l).reverse.dropWhile pyIsSpace).reverse

/-- Python `str.strip()`. -/
def pyStrip (s : String) : String := String.mk (stripList s.toList)

/-- Python `str.lower()` on one character (ASCII range, as produced by the
spreadsheet headers this program manipulates). -/
def lowerChar (c : Char) : Char :=
  if 65 ≤ c.toNat ∧ c.toNat ≤ 90 then Char.ofNat (c.toNat + 32) else c

/-- Python `str.upper()` on one character (ASCII range). -/
def upperChar (c : Char) : Char :=
  if 97 ≤ c.toNat ∧ c.toNat ≤ 122 then Char.ofNat (c.toNat - 32) else c

/-- Python `str.lower()`. -/
def pyLower (s : String) : String := String.mk (s.toList.map lowerChar)

/-- Python `str.upper()`. -/
def pyUpper (s : String) : String := String.mk (s.toList.map upperChar)

/-- Remove every occurrence of a character, as `str.replace(ch, '')` does. -/
def removeAll (ch : Char) (s : String) : String :=
  String.mk (s.toList.filter (fun c => c ≠ ch))

/-- The no-break space character U+00A0 (`'\xa0'` in the source). -/
def nbspChar : Char := Char.ofNat 160

/-! ### Exact model of float values and of Python's `float(str)` parser -/

/-- A Python float as produced by `astype(float)`: `nan`, a signed infinity,
or a finite value (kept as an exact rational). -/
inductive Val : Type where
  | nan : Val
  | inf : Bool → Val
  | fin : ℚ → Val
deriving DecidableEq

/-- Whether a float value is `NaN` (pandas missing-value sentinel). -/
def Val.isNan : Val → Bool
  | .nan => true
  | _ => false

/-- IEEE float addition on the model (pandas sums use it after skipping
`NaN`s; `inf + -inf` is `nan`). -/
def vadd : Val → Val → Val
  | .nan, _ => .nan
  | _, .nan => .nan
  | .inf s, .inf t => if s = t then .inf s else .nan
  | .inf s, .fin _ => .inf s
  | .fin _, .inf t => .inf t
  | .fin a, .fin b => .fin (a + b)

/-- Decimal digit group with Python's underscore rule: any underscore must
sit between two digits.  Empty groups are accepted here; callers require at
least one digit where Python does. -/
def groupOk (cs : List Char) : Bool :=
  match cs with
  | [] => true
  | _ =>
      (cs.head? ≠ some '_') && (cs.getLast? ≠ some '_') &&
      noDoubleUnderscore cs && cs.all (fun c => c.isDigit || c = '_')
where
  /-- No two adjacent underscores. -/
  noDoubleUnderscore : List Char → Bool
    | [] => true
    | [_] => true
    | a :: b :: r => !(a = '_' && b = '_') && noDoubleUnderscore (b :: r)

/-- Numeric value of a list of decimal digits. -/
def digitsToNat (cs : List Char) : Nat :=
  cs.foldl (fun a c => 10 * a + (c.toNat - 48)) 0

/-- Split a list at the first character satisfying `p`; the second component
is `none` when no such character occurs. -/
def splitFirst (p : Char → Bool) : List Char → List Char × Option (List Char)
  | [] => ([], none)
  | c :: r =>
      if p c then ([], some r)
      else
        let (a, b) := splitFirst p r
        (c :: a, b)

/-- Parse an unsigned Python float literal (digits, optional fraction,
optional exponent, with underscore groups), returning its exact value. -/
def parseUnsigned (cs : List Char) : Option ℚ :=
  let me := splitFirst (fun c => c = 'e' || c = 'E') cs
  let ifp := splitFirst (fun c => c = '.') me.1
  let ip := ifp.1
  let fp := (ifp.2).getD []
  if groupOk ip && groupOk fp && !(ip.isEmpty && fp.isEmpty) then
    let ipd := ip.filter (fun c => c ≠ '_')
    let fpd := fp.filter (fun c => c ≠ '_')
    let base : ℚ := (digitsToNat ipd : ℚ) + (digitsToNat fpd : ℚ) / ((10 : ℚ) ^ fpd.length)
    match me.2 with
    | none => some base
    | some ec =>
        let se : Int × List Char :=
          match ec with
          | '+' :: r => (1, r)
          | '-' :: r => (-1, r)
          | r => (1, r)
        if !(se.2).isEmpty && groupOk se.2 then
          let e : Int := se.1 * (digitsToNat ((se.2).filter (fun c => c ≠ '_')) : Int)
          some (base * (10 : ℚ) ^ e)
        else none
  else none

/-- Python's `float(s)` as invoked by `astype(float)`: optional surrounding
whitespace, optional sign, then `nan`, `inf`/`infinity` (case-insensitive)
or a decimal literal.  `none` models the `ValueError` raised for anything
else. -/
def parseFloat (s : String) : Option Val :=
  let t := (pyStrip s).toList
  let sb : Bool × List Char :=
    match t with
    | '+' :: r => (false, r)
    | '-' :: r => (true, r)
    | r => (false, r)
  let low := (sb.2).map lowerChar
  if low = ("nan").toList then some Val.nan
  else if low = ("inf").toList || low = ("infinity").toList then
    some (Val.inf sb.1)
  else
    match parseUnsigned sb.2 with
    | some q => some (Val.fin (if sb.1 then -q else q))
    | none => none

/-! ### Numeric coercion (src/app.py lines 68-80)

For each of the columns `quantity/mt` and `invoice amount` the program runs

    combined_df[col].astype(str)
      .str.replace(',', '', regex=False)
      .str.replace('\xa0', '', regex=False)
      .str.strip()
      .replace('', '0')
      .astype(float)
-/

/-- pandas `astype(str)` on one cell: a missing value becomes the literal
string `"nan"`. -/
def astypeStr : Cell → String
  | none => ("nan")
  | some s => s

/-- The textual clean-up applied to one value before `astype(float)`:
remove commas, remove no-break spaces, strip whitespace, and replace an
empty result by `"0"` (the `Series.replace('', '0')` step matches whole
values only). -/
def cleanupValue (s : String) : String :=
  let s1 := removeAll ',' s
  let s2 := removeAll nbspChar s1
  let s3 := pyStrip s2
  if s3 = ("") then ("0") else s3

/-- Coercion of a single cell of a designated numeric column; `none` models
the `ValueError` that `astype(float)` raises on an unparseable value. -/
def coerceCell (c : Cell) : Option Val :=
  parseFloat (cleanupValue (astypeStr c))

/-- Coercion of a whole column; the error carries the first offending value
(as `astype(float)`'s `ValueError` does), and aborts the run. -/
def coerceColumn : List Cell → Except String (List Val)
  | [] => .ok []
  | c :: cs =>
      match coerceCell c with
      | some v => (coerceColumn cs).map (fun vs => v :: vs)
      | none => .error (astypeStr c)

/-! ### The combined table (src/app.py lines 60-80)

After concatenation the program only ever addresses the combined frame
through the columns `job no`, `quantity/mt`, `invoice amount`, `currency`,
`client` and `commodity`, so a combined row is modelled as a record of
those cells. -/

/-- One row of a per-sheet table restricted to the columns the combined
pipeline addresses. -/
structure Row : Type where
  jobNo : Cell
  quantity : Cell
  invoice : Cell
  currency : Cell
  client : Cell
  commodity : Cell
deriving DecidableEq

/-- A combined row after numeric coercion: the two designated columns hold
float values. -/
structure CRow : Type where
  jobNo : Cell
  qty : Val
  inv : Val
  currency : Cell
  client : Cell
  commodity : Cell
deriving DecidableEq

/-- pandas `isna` over a whole row: every modelled column is missing. -/
def rowAllMissing (r : Row) : Bool :=
  r.jobNo.isNone && r.quantity.isNone && r.invoice.isNone &&
  r.currency.isNone && r.client.isNone && r.commodity.isNone

/-- `pd.concat(...)` followed by `dropna(how='all')` (lines 61-62). -/
def combinedRows (tables : List (List Row)) : List Row :=
  (tables.flatten).filter (fun r => !(rowAllMissing r))

/-- Forward-fill with the last non-missing value seen so far. -/
def ffillAux (last : Cell) : List Cell → List Cell
  | [] => []
  | none :: xs => last :: ffillAux last xs
  | some v :: xs => some v :: ffillAux (some v) xs

/-- pandas `Series.ffill()` (line 65). -/
def ffill (xs : List Cell) : List Cell := ffillAux none xs

/-- The last non-missing value of a column prefix, with default `d`. -/
def lastD (d : Cell) (l : List Cell) : Cell :=
  l.foldl (fun a x => match x with | some v => some v | none => a) d

/-- The last non-missing value of a column prefix (pandas' fill source,
used to state what forward-filling computes). -/
def lastNonMissing (l : List Cell) : Cell := lastD none l

/-- The `job no` column of the combined table, in final row order, before
forward-filling. -/
def combinedJobCol (tables : List (List Row)) : List Cell :=
  (combinedRows tables).map (fun r => r.jobNo)

/-- The combined rows with `combined_df['job no'] = combined_df['job no'].ffill()`
applied (line 65). -/
def ffilledRows (tables : List (List Row)) : List Row :=
  List.zipWith (fun r j => { r with jobNo := j })
    (combinedRows tables) (ffill (combinedJobCol tables))

/-- Assemble coerced rows from the original rows and the two coerced
columns. -/
def buildCRows : List Row → List Val → List Val → List CRow
  | r :: rs, q :: qs, v :: vs =>
      ⟨r.jobNo, q, v, r.currency, r.client, r.commodity⟩ :: buildCRows rs qs vs
  | _, _, _ => []

/-- The TableCombiner stage (lines 60-80): concatenate, drop all-missing
rows, forward-fill `job no`, then coerce `quantity/mt` and `invoice amount`
to float.  An unparseable value aborts the run with the offending value. -/
def tableCombine (tables : List (List Row)) : Except String (List CRow) :=
  let rows := ffilledRows tables
  match coerceColumn (rows.map (fun r => r.quantity)) with
  | .error e => .error e
  | .ok qs =>
      match coerceColumn (rows.map (fun r => r.invoice)) with
      | .error e => .error e
      | .ok vs => .ok (buildCRows rows qs vs)

/-! ### Aggregation: sums and grouping -/

instance : Zero Val := ⟨Val.fin 0⟩

instance : Add Val := ⟨vadd⟩

/-- Float addition gives `Val` an additive commutative monoid structure
(needed to reason about reordering pandas sums); the proofs are case
analyses over `nan`/`inf`/`fin`. -/
instance : AddCommMonoid Val where
  add_assoc a b c := by
    rcases a with _ | s | x <;> rcases b with _ | t | y <;> rcases c with _ | u | z <;>
      first
        | rfl
        | (cases s <;> cases t <;> cases u <;> rfl)
        | (cases s <;> cases t <;> rfl)
        | (cases t <;> cases u <;> rfl)
        | (show Val.fin (x + y + z) = Val.fin (x + (y + z)); rw [add_assoc])
  zero_add a := by
    rcases a with _ | s | x
    · rfl
    · rfl
    · show Val.fin (0 + x) = Val.fin x
      rw [zero_add]
  add_zero a := by
    rcases a with _ | s | x
    · rfl
    · rfl
    · show Val.fin (x + 0) = Val.fin x
      rw [add_zero]
  add_comm a b := by
    rcases a with _ | s | x <;> rcases b with _ | t | y <;>
      first
        | rfl
        | (cases s <;> cases t <;> rfl)
        | (show Val.fin (x + y) = Val.fin (y + x); rw [add_comm])
  nsmul := nsmulRec

/-- pandas `Series.sum()` with the default `skipna=True`: `NaN` entries are
skipped and an empty sum is `0.0`.  Used both for whole-column sums and for
`groupby(...).sum()` group aggregates. -/
def aggSum (xs : List Val) : Val := (xs.filter (fun v => !v.isNan)).sum

/-! ### Sorting (pandas `groupby` sorts group keys; `sorted()` in line 122) -/

/-- Insert into a list sorted by `le`. -/
def insertBy (le : α → α → Bool) (x : α) : List α → List α
  | [] => [x]
  | y :: ys => if le x y then x :: y :: ys else y :: insertBy le x ys

/-- Insertion sort by `le`. -/
def sortBy (le : α → α → Bool) (xs : List α) : List α := xs.foldr (insertBy le) []

/-- Lexicographic comparison of string pairs, as pandas orders composite
group keys. -/
def pairLe (a b : String × String) : Bool :=
  decide (a.1 < b.1) || (decide (a.1 = b.1) && decide (a.2 ≤ b.2))

/-- Comparison of strings by code points, matching Python string order. -/
def strLe (a b : String) : Bool := decide (a ≤ b)

/-! ### Summary by client and currency (src/app.py lines 83-95) -/

/-- One row of the client/currency summary. -/
structure SRow : Type where
  client : String
  currency : String
  qty : Val
  inv : Val
deriving DecidableEq

/-- The composite group key of `groupby(['client', 'currency'])`; rows with
a missing component are dropped by pandas grouping. -/
def rowKey (r : CRow) : Option (String × String) :=
  match r.client, r.currency with
  | some a, some b => some (a, b)
  | _, _ => none

/-- The sorted distinct group keys of the summary `groupby`. -/
def summaryKeys (rows : List CRow) : List (String × String) :=
  sortBy pairLe ((rows.filterMap rowKey).dedup)

/-- `groupby(['client','currency']).agg(sum).reset_index()` (lines 83-86). -/
def summaryGrouped (rows : List CRow) : List SRow :=
  (summaryKeys rows).map (fun k =>
    let g := rows.filter (fun r => rowKey r = some k)
    ⟨k.1, k.2, aggSum (g.map (fun r => r.qty)), aggSum (g.map (fun r => r.inv))⟩)

/-- The exclusion predicate of lines 89-93: currency blank after stripping
and both totals exactly zero. -/
def artifactRow (s : SRow) : Bool :=
  (pyStrip s.currency = ("")) && s.qty = Val.fin 0 && s.inv = Val.fin 0

/-- The summary displayed by the program: the grouped rows minus the
blank-and-zero artifacts (lines 89-93) and minus rows whose two aggregates
are both `NaN` (`dropna(subset=..., how='all')`, line 95). -/
def summarize (rows : List CRow) : List SRow :=
  ((summaryGrouped rows).filter (fun s => !artifactRow s)).filter
    (fun s => !(s.qty.isNan && s.inv.isNan))

/-! ### Global totals (src/app.py lines 228-245) -/

/-- `combined_df['quantity/mt'].sum()` (line 228). -/
def totalQty (rows : List CRow) : Val := aggSum (rows.map (fun r => r.qty))

/-- The currency-code normalization the program applies to the index of the
per-currency invoice totals: `c.strip().upper()` (line 235). -/
def normCur (c : String) : String := pyUpper (pyStrip c)

/-- The sorted distinct raw currency values of the combined table; rows
with a missing currency are dropped by `groupby`. -/
def rawCurrencies (rows : List CRow) : List String :=
  sortBy strLe ((rows.filterMap (fun r => r.currency)).dedup)

/-- `combined_df.groupby('currency')['invoice amount'].sum().rename(...)`
(lines 231-236): grouping is by the RAW currency value, and only the
resulting index labels are then renamed to their normalized form, so two
raw codes with the same normalized form yield two entries. -/
def invByCur (rows : List CRow) : List (String × Val) :=
  (rawCurrencies rows).map (fun c =>
    (normCur c,
     aggSum ((rows.filter (fun r => r.currency = some c)).map (fun r => r.inv))))

/-- `Series.get(key, default)` on a possibly duplicated index: no matching
label gives the default, and matching labels give the matched values (a
scalar for a unique label, a sub-series for duplicates). -/
def seriesGet (s : List (String × Val)) (k : String) (d : Val) : List Val :=
  match s.filter (fun e => e.1 = k) with
  | [] => [d]
  | ms => ms.map (fun e => e.2)

/-! ### Clients-by-job-number pivot (src/app.py lines 107-130) -/

/-- `combined_df[['client','job no']].dropna()` (line 111): keep rows where
both cells are present. -/
def fjRows (rows : List CRow) : List CRow :=
  rows.filter (fun r => r.client.isSome && r.jobNo.isSome)

/-- `drop_duplicates('client')` (line 112): keep the first row for each
distinct `client` value. -/
def dedupByClient (seen : List Cell) : List CRow → List CRow
  | [] => []
  | r :: rs =>
      if r.client ∈ seen then dedupByClient seen rs
      else r :: dedupByClient (r.client :: seen) rs

/-- `astype(str)` of the `job no` cell (always present in `fjRows`). -/
def jobStr (r : CRow) : String := astypeStr r.jobNo

/-- `str.count('\.')` — the number of literal dots. -/
def countDots (s : String) : Nat := (s.toList.filter (fun c => c = '.')).length

/-- The first job row per client, restricted to job identifiers containing
exactly two dots (lines 109-117). -/
def firstJobs (rows : List CRow) : List CRow :=
  (dedupByClient [] (fjRows rows)).filter (fun r => countDots (jobStr r) = 2)

/-- Python `str.split('.')` on a character list: split at every literal
dot (the accumulator holds the current piece, reversed). -/
def splitDotAux : List Char → List Char → List (List Char)
  | [], acc => [acc.reverse]
  | c :: cs, acc =>
      if c = '.' then acc.reverse :: splitDotAux cs []
      else splitDotAux cs (c :: acc)

/-- Python `str.split('.')`. -/
def splitDot (s : String) : List String :=
  (splitDotAux s.toList []).map String.mk

/-- `str.split('.').str[1]` — the middle segment of a dotted identifier
(line 118); total on the two-dot identifiers kept by `firstJobs`. -/
def monthOf (r : CRow) : String := (((splitDot (jobStr r))).get? 1).getD ("")

/-- The sorted distinct month keys (`sorted(month_groups)`, line 122). -/
def monthKeys (rows : List CRow) : List String :=
  sortBy strLe (((firstJobs rows).map monthOf).dedup)

/-- The client list of one month group, in first-seen order
(`groupby('Month')['client'].apply(list)`, line 121). -/
def monthGroup (rows : List CRow) (m : String) : List Cell :=
  ((firstJobs rows).filter (fun r => monthOf r = m)).map (fun r => r.client)

/-- The length of the longest column (the number of rows `zip_longest`
produces). -/
def maxLen (cols : List (List α)) : Nat := cols.foldr (fun c m => max c.length m) 0

/-- `itertools.zip_longest(*cols, fillvalue=None)`: row `i` holds the
`i`-th entry of each column, `none` past a column's end. -/
def zipLongest (cols : List (List α)) : List (List (Option α)) :=
  (List.range (maxLen cols)).map (fun i => cols.map (fun c => c.get? i))

/-- The rows of `pivot_df` before the final `dropna` (lines 125-126). -/
def pivotRows (rows : List CRow) : List (List (Option Cell)) :=
  zipLongest ((monthKeys rows).map (monthGroup rows))

/-- `pivot_df.dropna(how='all')` (line 127). -/
def pivotDf (rows : List CRow) : List (List (Option Cell)) :=
  (pivotRows rows).filter (fun r => !(r.all (fun c => c.isNone)))

/-- The pivot's column labels, `f'Job No.{m}'` per sorted month key
(line 126). -/
def pivotColNames (rows : List CRow) : List String :=
  (monthKeys rows).map (fun m => ("Job No.") ++ m)

/-- Column `j` of the displayed pivot table. -/
def pivotColumn (rows : List CRow) (j : Nat) : List (Option Cell) :=
  (pivotDf rows).map (fun r => (r.get? j).getD none)

/-! ### Per-sheet normalization (src/app.py lines 23-49)

A raw sheet is its verbatim grid of cells, row-major.  `pd.read_excel`
with its default `header=0` consumes the grid's first row as a provisional
header (the code discards those labels when it later reassigns
`df.columns`), so the loaded frame's data rows are the grid rows from the
second on.  Label-based column access is modelled positionally (the Excel
reader deduplicates header labels, making `df.columns[0]` the positional
first column). -/

/-- A verbatim sheet grid. -/
abbrev Grid := List (List Cell)

/-- A normalized per-sheet table: header labels plus data rows. -/
structure NTable : Type where
  columns : List Cell
  rows : List (List Cell)
deriving DecidableEq

/-- The SheetNormalizer (lines 25-44): read the sheet, drop the first
column, drop the loaded frame's first row, promote the next row to column
headers, drop all-missing rows and append the constant `client` column.
Errors model the `IndexError`/`KeyError` raised on too-small grids, which
the caller catches per sheet. -/
def normalizeSheet (grid : Grid) (name : String) : Except String NTable :=
  match grid with
  | [] => .error ("read_excel: empty sheet has no columns")
  | r0 :: data =>
      match r0 with
      | [] => .error ("df.columns[0]: index out of bounds")
      | _ :: _ =>
          let rows1 := data.map (fun r => r.drop 1)
          match rows1 with
          | [] => .error ("drop(index=0): label 0 not found")
          | _ :: rest =>
              match rest with
              | [] => .error ("iloc[0]: single positional indexer out of bounds")
              | hdr :: body =>
                  .ok { columns := hdr ++ [some ("client")],
                        rows := (body.filter
                            (fun r => !(r.all (fun c => c.isNone)))).map
                          (fun r => r ++ [some name]) }

/-- The error banner the program shows for a failed sheet (line 49). -/
def sheetErrMsg (n e : String) : String :=
  ("Error processing sheet ") ++ n ++ (": ") ++ e

/-- The per-sheet loop (lines 23-49): each sheet is processed inside its
own `try`/`except`, so a failing sheet contributes an error banner and is
left out of `sheets_data` while the loop continues. -/
def processSheets : List (String × Grid) → List (String × NTable) × List String
  | [] => ([], [])
  | (n, g) :: rest =>
      let pr := processSheets rest
      match normalizeSheet g n with
      | .ok t => ((n, t) :: pr.1, pr.2)
      | .error e => (pr.1, sheetErrMsg n e :: pr.2)

/-! ### Column-name cleaning (src/app.py lines 52-58) -/

/-- Collapse each maximal run of whitespace to a single space, as
`str.replace(r'\s+', ' ', regex=True)` does; the flag records whether the
previous character was part of a whitespace run. -/
def collapseAux : Bool → List Char → List Char
  | _, [] => []
  | prevSpace, c :: cs =>
      if pyIsSpace c then
        if prevSpace then collapseAux true cs
        else ' ' :: collapseAux true cs
      else c :: collapseAux false cs

/-- The column-name transformation of lines 53-58: strip, lowercase,
collapse internal whitespace (as a character-list pipeline). -/
def cleanList (l : List Char) : List Char :=
  collapseAux false ((stripList l).map lowerChar)

/-- The column-name transformation as a string function. -/
def cleanName (s : String) : String := String.mk (cleanList s.toList)

/-- ColumnNameCleaner applied to a table: clean every column label (a
missing label stays missing, as pandas `.str` operations map `NaN` to
`NaN`); cell values untouched. -/
def cleanColumns (t : NTable) : NTable :=
  { columns := t.columns.map (fun c => c.map cleanName), rows := t.rows }

/-! ### Predicates used to reason about cleaned names -/

/-- The head character, when present, is not whitespace. -/
def headNS (l : List Char) : Prop :=
  ∀ c, l.head? = some c → pyIsSpace c = false

/-- The last character, when present, is not whitespace. -/
def lastNS (l : List Char) : Prop :=
  ∀ c, l.getLast? = some c → pyIsSpace c = false

/-! ### Spec-side definitions (for refinement comparisons only)

These two definitions follow the words of the specification, not the
source; they exist solely to be compared against the source-derived
definitions above. -/

/-- Modelled from the spec (claim C4): invoice totals grouped by the
currency code normalized BEFORE grouping, so raw codes that agree after
trimming and uppercasing share one total. -/
def invByCurSpec (rows : List CRow) : List (String × Val) :=
  (sortBy strLe (((rows.filterMap (fun r => r.currency)).map normCur).dedup)).map
    (fun c =>
      (c, aggSum ((rows.filter
            (fun r => (r.currency.map normCur) = some c)).map (fun r => r.inv))))

/-- Modelled from the spec (claim C6): strip exactly the first column and
the first two rows of the verbatim grid, promote the (stripped) second row
to column names, then drop all-missing rows and append the `client`
column as the source does. -/
def normalizeSheetSpec (grid : Grid) (name : String) : Except String NTable :=
  match grid with
  | r0 :: r1 :: body =>
      match r0 with
      | [] => .error ("fewer than 1 column after the column drop")
      | _ :: _ =>
          .ok { columns := r1.drop 1 ++ [some ("client")],
                rows := ((body.map (fun r => r.drop 1)).filter
                    (fun r => !(r.all (fun c => c.isNone)))).map
                  (fun r => r ++ [some name]) }
  | _ => .error ("fewer than 2 rows")

/-! ### Concrete tables used to instantiate the theorems -/

/-- A one-sheet table whose only row has a missing `quantity/mt` cell. -/
def tblMissingQty : List (List Row) :=
  [[⟨some ("1.1.1"), none, some ("5"), some ("USD"), some ("A"), some ("X")⟩]]

/-- A one-sheet table whose only row has an unparseable `quantity/mt`. -/
def tblBadQty : List (List Row) :=
  [[⟨some ("1.1.1"), some ("12,3x4"), some ("5"), some ("USD"), some ("A"),
     some ("X")⟩]]

/-- Two one-row sheets; the second sheet's `job no` is missing (the
forward-fill scenario of spec section 8). -/
def tblTwoSheets : List (List Row) :=
  [[⟨some ("1.1.1"), some ("1,000"), some ("5"), some ("USD"), some ("A"),
     some ("X")⟩],
   [⟨none, some ("500"), some ("5"), some ("USD"), some ("B"), some ("X")⟩]]

/-- Combined rows whose raw currency codes differ only in case. -/
def rowsCaseCur : List CRow :=
  [⟨some ("1"), Val.fin 1, Val.fin 10, some ("usd"), some ("A"), none⟩,
   ⟨some ("1"), Val.fin 2, Val.fin 20, some ("USD"), some ("A"), none⟩]

/-- A one-sheet table whose group sums are `inf + -inf`. -/
def tblOppositeInf : List (List Row) :=
  [[⟨some ("1"), some ("inf"), some ("inf"), some ("USD"), some ("A"),
     some ("X")⟩,
    ⟨some ("1"), some ("-inf"), some ("-inf"), some ("USD"), some ("A"),
     some ("X")⟩]]

/-- The coerced form of `tblOppositeInf`. -/
def rowsOppositeInf : List CRow :=
  [⟨some ("1"), Val.inf false, Val.inf false, some ("USD"), some ("A"),
    some ("X")⟩,
   ⟨some ("1"), Val.inf true, Val.inf true, some ("USD"), some ("A"),
    some ("X")⟩]

/-- A single combined row with an ordinary currency and finite totals. -/
def rowsOneUSD : List CRow :=
  [⟨some ("1"), Val.fin 1, Val.fin 2, some ("USD"), some ("A"), none⟩]

/-- The verbatim grid of a four-row, two-column sheet. -/
def gridFourRows : Grid :=
  [[some ("i0"), some ("A")], [some ("i1"), some ("B")],
   [some ("i2"), some ("C")], [some ("i3"), some ("D")]]

/-- A good sheet, a one-row sheet that fails normalization, then another
good sheet. -/
def sheetsMixed : List (String × Grid) :=
  [(("S1"), gridFourRows), (("S2"), [[some ("x")]]), (("S3"), gridFourRows)]

/-- Combined rows realizing the pivot scenario of spec section 8. -/
def rowsPivot : List CRow :=
  [⟨some ("3.07.1"), Val.fin 1, Val.fin 1, some ("USD"), some ("c1"), some ("w")⟩,
   ⟨some ("5.09.2"), Val.fin 1, Val.fin 1, some ("USD"), some ("c2"), some ("w")⟩,
   ⟨some ("9.07.3"), Val.fin 1, Val.fin 1, some ("USD"), some ("c3"), some ("w")⟩]

/-! ### Helper lemmas: coercion -/

theorem coerceColumn_ok_get {cs : List Cell} {vs : List Val}
    (h : coerceColumn cs = .ok vs) (i : Nat) :
    vs.get? i = (cs.get? i).bind coerceCell := by
  induction cs generalizing vs i with
  | nil =>
      simp only [coerceColumn] at h
      cases h
      simp
  | cons c cs ih =>
      simp only [coerceColumn] at h
      cases hc : coerceCell c with
      | none => rw [hc] at h; exact absurd h (by simp)
      | some v =>
          rw [hc] at h
          cases hr : coerceColumn cs with
          | error e => rw [hr] at h; exact absurd h (by simp [Except.map])
          | ok ws =>
              rw [hr] at h
              simp only [Except.map, Except.ok.injEq] at h
              cases h
              cases i with
              | zero => simp [hc]
              | succ j => simpa using ih hr j

theorem coerceColumn_error_of_mem {cs : List Cell} {c : Cell}
    (hm : c ∈ cs) (hc : coerceCell c = none) :
    ∃ e, coerceColumn cs = .error e := by
  induction cs with
  | nil => cases hm
  | cons d ds ih =>
      rcases List.mem_cons.mp hm with rfl | hmem
      · exact ⟨astypeStr c, by simp [coerceColumn, hc]⟩
      · cases hd : coerceCell d with
        | none => exact ⟨astypeStr d, by simp [coerceColumn, hd]⟩
        | some v =>
            obtain ⟨e, he⟩ := ih hmem
            exact ⟨e, by simp [coerceColumn, hd, he, Except.map]⟩

/-! ### Helper lemmas: forward fill -/

theorem ffillAux_get? (xs : List Cell) (last : Cell) (i : Nat) :
    (ffillAux last xs).get? i =
      (xs.get? i).map (fun c => c.elim (lastD last (xs.take i)) some) := by
  induction xs generalizing last i with
  | nil => simp [ffillAux]
  | cons x xs ih =>
      cases x with
      | none =>
          cases i with
          | zero => simp [ffillAux, lastD]
          | succ j => simpa [ffillAux, lastD] using ih last j
      | some v =>
          cases i with
          | zero => simp [ffillAux, lastD]
          | succ j => simpa [ffillAux, lastD] using ih (some v) j

theorem ffillAux_length (xs : List Cell) (last : Cell) :
    (ffillAux last xs).length = xs.length := by
  induction xs generalizing last with
  | nil => rfl
  | cons x xs ih => cases x <;> simp [ffillAux, ih]

theorem zipWith_jobNo (rows : List Row) (jn : List Cell)
    (h : jn.length = rows.length) :
    (List.zipWith (fun r j => { r with jobNo := j }) rows jn).map
      (fun r => r.jobNo) = jn := by
  induction rows generalizing jn with
  | nil => cases jn with
      | nil => rfl
      | cons j js => simp at h
  | cons r rs ih =>
      cases jn with
      | nil => rfl
      | cons j js => simpa using ih js (by simpa using h)

/-! ### Helper lemmas: sums -/

theorem aggSum_append (xs ys : List Val) :
    aggSum (xs ++ ys) = vadd (aggSum xs) (aggSum ys) := by
  show aggSum (xs ++ ys) = aggSum xs + aggSum ys
  simp [aggSum, List.filter_append, List.sum_append]

theorem aggSum_perm {xs ys : List Val} (h : xs.Perm ys) :
    aggSum xs = aggSum ys := by
  unfold aggSum
  exact (h.filter (fun v => !v.isNan)).sum_eq

/-! ### Helper lemmas: sorting and grouping -/

theorem mem_insertBy (le : α → α → Bool) (x a : α) (l : List α) :
    a ∈ insertBy le x l ↔ a = x ∨ a ∈ l := by
  induction l with
  | nil => simp [insertBy]
  | cons y ys ih =>
      by_cases h : le x y = true
      · have e : insertBy le x (y :: ys) = x :: y :: ys := by
          simp [insertBy, h]
        rw [e]
        simp [List.mem_cons]
      · have e : insertBy le x (y :: ys) = y :: insertBy le x ys := by
          simp [insertBy, h]
        rw [e]
        simp only [List.mem_cons, ih]
        tauto

theorem mem_sortBy (le : α → α → Bool) (a : α) (xs : List α) :
    a ∈ sortBy le xs ↔ a ∈ xs := by
  induction xs with
  | nil => simp [sortBy]
  | cons x l ih =>
      show a ∈ insertBy le x (sortBy le l) ↔ _
      rw [mem_insertBy, ih, List.mem_cons]

theorem pairwise_insertBy (le : α → α → Bool)
    (total : ∀ a b, le a b = false → le b a = true)
    (tr : ∀ a b c, le a b = true → le b c = true → le a c = true)
    (x : α) (l : List α) (h : l.Pairwise (fun a b => le a b = true)) :
    (insertBy le x l).Pairwise (fun a b => le a b = true) := by
  induction l with
  | nil => simp [insertBy]
  | cons y ys ih =>
      rcases List.pairwise_cons.mp h with ⟨hy, hys⟩
      by_cases hxy : le x y = true
      · have e : insertBy le x (y :: ys) = x :: y :: ys := by
          simp [insertBy, hxy]
        rw [e]
        refine List.pairwise_cons.mpr ⟨?_, h⟩
        intro b hb
        rcases List.mem_cons.mp hb with rfl | hmem
        · exact hxy
        · exact tr x y b hxy (hy b hmem)
      · have e : insertBy le x (y :: ys) = y :: insertBy le x ys := by
          simp [insertBy, hxy]
        rw [e]
        refine List.pairwise_cons.mpr ⟨?_, ih hys⟩
        intro b hb
        rcases (mem_insertBy le x b ys).mp hb with hbx | hmem
        · rw [hbx]
          exact total x y (by simpa using hxy)
        · exact hy b hmem

theorem pairwise_sortBy (le : α → α → Bool)
    (total : ∀ a b, le a b = false → le b a = true)
    (tr : ∀ a b c, le a b = true → le b c = true → le a c = true)
    (xs : List α) :
    (sortBy le xs).Pairwise (fun a b => le a b = true) := by
  induction xs with
  | nil => simp [sortBy]
  | cons x l ih => exact pairwise_insertBy le total tr x (sortBy le l) ih

/-! ### Helper lemmas: zip_longest and the pivot -/

theorem length_le_maxLen {cols : List (List α)} {c : List α} (h : c ∈ cols) :
    c.length ≤ maxLen cols := by
  induction cols with
  | nil => cases h
  | cons d ds ih =>
      rcases List.mem_cons.mp h with rfl | hmem
      · exact le_max_left _ _
      · exact le_trans (ih hmem) (le_max_right _ _)

theorem exists_lt_of_lt_maxLen {cols : List (List α)} {i : Nat}
    (h : i < maxLen cols) : ∃ c ∈ cols, i < c.length := by
  induction cols with
  | nil => simp [maxLen] at h
  | cons d ds ih =>
      rcases lt_max_iff.mp h with hd | hds
      · exact ⟨d, List.mem_cons_self d ds, hd⟩
      · obtain ⟨c, hc, hl⟩ := ih hds
        exact ⟨c, List.mem_cons_of_mem d hc, hl⟩

theorem range_map_get? (c : List α) (n : Nat) (h : c.length ≤ n) :
    (List.range n).map (fun i => c.get? i) =
      c.map some ++ List.replicate (n - c.length) none := by
  induction c generalizing n with
  | nil => simp
  | cons a c ih =>
      cases n with
      | zero => simp at h
      | succ m =>
          rw [List.range_succ_eq_map]
          simp only [List.map_cons, List.map_map]
          have e2 : ((fun i => (a :: c).get? i) ∘ Nat.succ) = fun i => c.get? i :=
            funext (fun i => rfl)
          rw [e2, ih m (Nat.le_of_succ_le_succ h)]
          simp [Nat.succ_sub_succ]

theorem mem_zipLongest {cols : List (List α)} {r : List (Option α)}
    (h : r ∈ zipLongest cols) :
    ∃ i, i < maxLen cols ∧ r = cols.map (fun c => c.get? i) := by
  obtain ⟨i, hi, rfl⟩ := List.mem_map.mp h
  exact ⟨i, List.mem_range.mp hi, rfl⟩

theorem dedupByClient_head? {l : List CRow} {r : CRow} {seen : List Cell}
    (h : r ∈ dedupByClient seen l) :
    r.client ∉ seen ∧
      (l.filter (fun x => x.client = r.client)).head? = some r := by
  induction l generalizing seen with
  | nil => cases h
  | cons d ds ih =>
      by_cases hd : d.client ∈ seen
      · have h' : r ∈ dedupByClient seen ds := by
          simpa [dedupByClient, hd] using h
        obtain ⟨hns, hh⟩ := ih h'
        have hne : ¬(d.client = r.client) := fun e => hns (e ▸ hd)
        refine ⟨hns, ?_⟩
        rw [List.filter_cons, if_neg (by simpa using hne)]
        exact hh
      · have h' : r = d ∨ r ∈ dedupByClient (d.client :: seen) ds := by
          simpa [dedupByClient, hd] using h
        rcases h' with rfl | hmem
        · refine ⟨hd, ?_⟩
          rw [List.filter_cons, if_pos (by simp)]
          rfl
        · obtain ⟨hns, hh⟩ := ih hmem
          have hrs : r.client ∉ seen := fun hs => hns (List.mem_cons_of_mem _ hs)
          have hne : ¬(d.client = r.client) := by
            intro e
            exact hns (e ▸ List.mem_cons_self _ _)
          refine ⟨hrs, ?_⟩
          rw [List.filter_cons, if_neg (by simpa using hne)]
          exact hh

theorem dedupByClient_complete :
    ∀ (l : List CRow) (seen : List Cell) (r : CRow), r ∈ l →
      r.client ∉ seen →
      ∃ d ∈ dedupByClient seen l, d.client = r.client := by
  intro l
  induction l with
  | nil => intro seen r hr; cases hr
  | cons x xs ih =>
      intro seen r hr hns
      by_cases hx : x.client ∈ seen
      · rcases List.mem_cons.mp hr with h0 | hmem
        · exact absurd (h0 ▸ hns) (fun hn => hn hx)
        · obtain ⟨d, hd, he⟩ := ih seen r hmem hns
          exact ⟨d, by simpa [dedupByClient, hx] using hd, he⟩
      · rw [show dedupByClient seen (x :: xs) =
            x :: dedupByClient (x.client :: seen) xs from by
          simp [dedupByClient, hx]]
        rcases List.mem_cons.mp hr with h0 | hmem
        · exact ⟨x, List.mem_cons_self _ _, by rw [h0]⟩
        · by_cases hcx : r.client = x.client
          · exact ⟨x, List.mem_cons_self _ _, hcx.symm⟩
          · have hns2 : r.client ∉ x.client :: seen := by
              intro hmem2
              rcases List.mem_cons.mp hmem2 with h1 | h2
              · exact hcx h1
              · exact hns h2
            obtain ⟨d, hd, he⟩ := ih (x.client :: seen) r hmem hns2
            exact ⟨d, List.mem_cons_of_mem x hd, he⟩

/-! ### Helper lemmas: the per-sheet loop -/

theorem processSheets_append (xs ys : List (String × Grid)) :
    processSheets (xs ++ ys) =
      ((processSheets xs).1 ++ (processSheets ys).1,
       (processSheets xs).2 ++ (processSheets ys).2) := by
  induction xs with
  | nil => simp [processSheets]
  | cons p ps ih =>
      obtain ⟨n, g⟩ := p
      cases hn : normalizeSheet g n with
      | ok t => simp [processSheets, hn, ih]
      | error e => simp [processSheets, hn, ih]

/-! ### Helper lemmas: grouping ignores rows with a missing key -/

theorem filterMap_filter_of_none (p : α → Bool) (f : α → Option β)
    (hf : ∀ a, p a = false → f a = none) (l : List α) :
    (l.filter p).filterMap f = l.filterMap f := by
  induction l with
  | nil => rfl
  | cons a as ih =>
      cases hp : p a with
      | true => simp [List.filter_cons, hp, List.filterMap_cons, ih]
      | false => simp [List.filter_cons, hp, List.filterMap_cons, hf a hp, ih]

theorem filter_filter_of_imp (p q : α → Bool)
    (hpq : ∀ a, q a = true → p a = true) (l : List α) :
    (l.filter p).filter q = l.filter q := by
  induction l with
  | nil => rfl
  | cons a as ih =>
      cases hp : p a with
      | true => simp [List.filter_cons, hp, ih]
      | false =>
          have hq : q a = false := by
            cases hqa : q a with
            | false => rfl
            | true => rw [hpq a hqa] at hp; cases hp
          simp [List.filter_cons, hp, hq, ih]

theorem rowKey_none_of_currency_none {r : CRow}
    (h : r.currency.isSome = false) : rowKey r = none := by
  unfold rowKey
  cases hcur : r.currency with
  | none => cases r.client <;> rfl
  | some c => rw [hcur] at h; simp at h

theorem currency_isSome_of_rowKey {r : CRow} {k : String × String}
    (h : rowKey r = some k) : r.currency.isSome = true := by
  unfold rowKey at h
  cases hcur : r.currency with
  | none => rw [hcur] at h; cases hcl : r.client <;> rw [hcl] at h <;> cases h
  | some c => rfl

/-! ### Helper lemmas: characters and lowercasing -/

theorem char_toNat_ofNat (n : Nat) (h : n < 55296) : (Char.ofNat n).toNat = n := by
  have hv : n.isValidChar := Or.inl h
  simp only [Char.ofNat, hv, dif_pos, Char.ofNatAux, Char.toNat]
  rfl

theorem lowerChar_toNat (c : Char) (h : 65 ≤ c.toNat ∧ c.toNat ≤ 90) :
    (lowerChar c).toNat = c.toNat + 32 := by
  unfold lowerChar
  rw [if_pos h]
  exact char_toNat_ofNat _ (by omega)

theorem lowerChar_eq_self (c : Char) (h : ¬(65 ≤ c.toNat ∧ c.toNat ≤ 90)) :
    lowerChar c = c := by
  unfold lowerChar
  rw [if_neg h]

theorem lowerChar_idem (c : Char) : lowerChar (lowerChar c) = lowerChar c := by
  by_cases h : 65 ≤ c.toNat ∧ c.toNat ≤ 90
  · have h2 := lowerChar_toNat c h
    exact lowerChar_eq_self _ (by omega)
  · rw [lowerChar_eq_self c h]
    exact lowerChar_eq_self c h

theorem pyIsSpace_lowerChar (c : Char) :
    pyIsSpace (lowerChar c) = pyIsSpace c := by
  by_cases h : 65 ≤ c.toNat ∧ c.toNat ≤ 90
  · have h2 := lowerChar_toNat c h
    have hl : pyIsSpace (lowerChar c) = false := by
      simp only [pyIsSpace, h2, Bool.or_eq_false_iff, decide_eq_false_iff_not]
      omega
    have hr : pyIsSpace c = false := by
      simp only [pyIsSpace, Bool.or_eq_false_iff, decide_eq_false_iff_not]
      omega
    rw [hl, hr]
  · rw [lowerChar_eq_self c h]

/-! ### Helper lemmas: whitespace collapsing -/

theorem getLast?_cons_ne {α : Type _} {l : List α} (a : α) (h : l ≠ []) :
    (a :: l).getLast? = l.getLast? := by
  cases l with
  | nil => exact absurd rfl h
  | cons b bs => exact List.getLast?_cons_cons

theorem collapseAux_flagIrrel {l : List Char} (h : headNS l) :
    collapseAux true l = collapseAux false l := by
  cases l with
  | nil => rfl
  | cons c cs =>
      have hc : pyIsSpace c = false := h c rfl
      simp [collapseAux, hc]

theorem headNS_collapseAux_true (l : List Char) :
    headNS (collapseAux true l) := by
  induction l with
  | nil => intro c h; cases h
  | cons c cs ih =>
      cases hc : pyIsSpace c with
      | true =>
          have e : collapseAux true (c :: cs) = collapseAux true cs := by
            simp [collapseAux, hc]
          rw [e]
          exact ih
      | false =>
          intro d hd
          have e : collapseAux true (c :: cs) = c :: collapseAux false cs := by
            simp [collapseAux, hc]
          rw [e] at hd
          simp only [List.head?_cons, Option.some.injEq] at hd
          rw [← hd]
          exact hc

theorem collapseAux_false_collapse (l : List Char) :
    ∀ b, collapseAux false (collapseAux b l) = collapseAux b l := by
  induction l with
  | nil => intro b; rfl
  | cons c cs ih =>
      intro b
      cases hc : pyIsSpace c with
      | true =>
          cases b with
          | true =>
              have e : collapseAux true (c :: cs) = collapseAux true cs := by
                simp [collapseAux, hc]
              rw [e]
              exact ih true
          | false =>
              have e : collapseAux false (c :: cs) = ' ' :: collapseAux true cs := by
                simp [collapseAux, hc]
              rw [e]
              have e2 : collapseAux false (' ' :: collapseAux true cs) =
                  ' ' :: collapseAux true (collapseAux true cs) := rfl
              rw [e2, collapseAux_flagIrrel (headNS_collapseAux_true cs), ih true]
      | false =>
          have e : ∀ b2, collapseAux b2 (c :: cs) = c :: collapseAux false cs := by
            intro b2
            cases b2 <;> simp [collapseAux, hc]
          rw [e b]
          have e2 : collapseAux false (c :: collapseAux false cs) =
              c :: collapseAux false (collapseAux false cs) := by
            simp [collapseAux, hc]
          rw [e2, ih false]

theorem mem_collapseAux {x : Char} :
    ∀ (l : List Char) b, x ∈ collapseAux b l → x = ' ' ∨ x ∈ l := by
  intro l
  induction l with
  | nil => intro b h; cases h
  | cons c cs ih =>
      intro b h
      cases hc : pyIsSpace c with
      | true =>
          cases b with
          | true =>
              rw [show collapseAux true (c :: cs) = collapseAux true cs from by
                simp [collapseAux, hc]] at h
              rcases ih true h with h1 | h2
              · exact Or.inl h1
              · exact Or.inr (List.mem_cons_of_mem c h2)
          | false =>
              rw [show collapseAux false (c :: cs) = ' ' :: collapseAux true cs from by
                simp [collapseAux, hc]] at h
              rcases List.mem_cons.mp h with h0 | hmem
              · exact Or.inl h0
              · rcases ih true hmem with h1 | h2
                · exact Or.inl h1
                · exact Or.inr (List.mem_cons_of_mem c h2)
      | false =>
          rw [show collapseAux b (c :: cs) = c :: collapseAux false cs from by
            cases b <;> simp [collapseAux, hc]] at h
          rcases List.mem_cons.mp h with h0 | hmem
          · exact Or.inr (h0 ▸ List.mem_cons_self c cs)
          · rcases ih false hmem with h1 | h2
            · exact Or.inl h1
            · exact Or.inr (List.mem_cons_of_mem c h2)

theorem lastNS_tail {c : Char} {cs : List Char} (hl : lastNS (c :: cs))
    (hcs : cs ≠ []) : lastNS cs := by
  intro d hd
  exact hl d (by rw [getLast?_cons_ne c hcs]; exact hd)

theorem lastNS_head_single {c : Char} {cs : List Char} (hl : lastNS (c :: cs))
    (hcs : cs = []) : pyIsSpace c = false := by
  subst hcs
  exact hl c rfl

theorem collapseAux_ne_nil :
    ∀ (l : List Char), lastNS l → l ≠ [] → ∀ b, collapseAux b l ≠ [] := by
  intro l
  induction l with
  | nil => intro _ h; exact absurd rfl h
  | cons c cs ih =>
      intro hl _ b
      cases hc : pyIsSpace c with
      | false =>
          cases b <;> simp [collapseAux, hc]
      | true =>
          have hcs : cs ≠ [] := by
            intro e
            rw [lastNS_head_single hl e] at hc
            cases hc
          have hlcs : lastNS cs := lastNS_tail hl hcs
          cases b with
          | true =>
              rw [show collapseAux true (c :: cs) = collapseAux true cs from by
                simp [collapseAux, hc]]
              exact ih hlcs hcs true
          | false => simp [collapseAux, hc]

theorem lastNS_collapseAux :
    ∀ (l : List Char), lastNS l → ∀ b, lastNS (collapseAux b l) := by
  intro l
  induction l with
  | nil =>
      intro _ b d hd
      cases b <;> cases hd
  | cons c cs ih =>
      intro hl b
      cases hc : pyIsSpace c with
      | true =>
          have hcs : cs ≠ [] := by
            intro e
            rw [lastNS_head_single hl e] at hc
            cases hc
          have hlcs : lastNS cs := lastNS_tail hl hcs
          cases b with
          | true =>
              rw [show collapseAux true (c :: cs) = collapseAux true cs from by
                simp [collapseAux, hc]]
              exact ih hlcs true
          | false =>
              rw [show collapseAux false (c :: cs) = ' ' :: collapseAux true cs from by
                simp [collapseAux, hc]]
              intro d hd
              have hne := collapseAux_ne_nil cs hlcs hcs true
              rw [getLast?_cons_ne ' ' hne] at hd
              exact ih hlcs true d hd
      | false =>
          rw [show collapseAux b (c :: cs) = c :: collapseAux false cs from by
            cases b <;> simp [collapseAux, hc]]
          by_cases hcs : cs = []
          · subst hcs
            intro d hd
            simp only [collapseAux, List.getLast?_singleton, Option.some.injEq] at hd
            rw [← hd]
            exact hc
          · have hlcs : lastNS cs := lastNS_tail hl hcs
            intro d hd
            have hne := collapseAux_ne_nil cs hlcs hcs false
            rw [getLast?_cons_ne c hne] at hd
            exact ih hlcs false d hd

theorem headNS_collapseAux {l : List Char} (h : headNS l) (b : Bool) :
    headNS (collapseAux b l) := by
  cases l with
  | nil => intro d hd; cases b <;> cases hd
  | cons c cs =>
      have hc : pyIsSpace c = false := h c rfl
      rw [show collapseAux b (c :: cs) = c :: collapseAux false cs from by
        cases b <;> simp [collapseAux, hc]]
      intro d hd
      simp only [List.head?_cons, Option.some.injEq] at hd
      rw [← hd]
      exact hc

/-! ### Helper lemmas: stripping -/

theorem headNS_dropWhile (l : List Char) : headNS (l.dropWhile pyIsSpace) := by
  induction l with
  | nil => intro c h; cases h
  | cons c cs ih =>
      cases hc : pyIsSpace c with
      | true => simpa [List.dropWhile_cons, hc] using ih
      | false =>
          intro d hd
          simp only [List.dropWhile_cons, hc] at hd
          simp only [Bool.false_eq_true, if_false, List.head?_cons,
            Option.some.injEq] at hd
          rw [← hd]
          exact hc

theorem getLast?_dropWhile (p : Char → Bool) :
    ∀ (l : List Char), l.dropWhile p ≠ [] →
      (l.dropWhile p).getLast? = l.getLast? := by
  intro l
  induction l with
  | nil => intro h; exact absurd rfl h
  | cons c cs ih =>
      intro h
      cases hc : p c with
      | true =>
          rw [List.dropWhile_cons, if_pos (by rw [hc])] at h ⊢
          have hcs : cs ≠ [] := by
            intro e
            rw [e] at h
            exact h rfl
          rw [ih h, getLast?_cons_ne c hcs]
      | false =>
          rw [List.dropWhile_cons, if_neg (by rw [hc]; exact Bool.false_ne_true)]

theorem dropWhile_eq_self_of_headNS {l : List Char} (h : headNS l) :
    l.dropWhile pyIsSpace = l := by
  cases l with
  | nil => rfl
  | cons c cs =>
      have hc : pyIsSpace c = false := h c rfl
      rw [List.dropWhile_cons, if_neg (by rw [hc]; exact Bool.false_ne_true)]

theorem headNS_stripList (l : List Char) : headNS (stripList l) := by
  unfold stripList
  by_cases hX : (dropLead l).reverse.dropWhile pyIsSpace = []
  · rw [hX]
    intro c h
    cases h
  · intro c h
    rw [List.head?_reverse] at h
    rw [getLast?_dropWhile pyIsSpace _ hX, List.getLast?_reverse] at h
    exact headNS_dropWhile l c h

theorem lastNS_stripList (l : List Char) : lastNS (stripList l) := by
  unfold stripList
  intro c h
  rw [List.getLast?_reverse] at h
  exact headNS_dropWhile (dropLead l).reverse c h

theorem stripList_eq_self {l : List Char} (h1 : headNS l) (h2 : lastNS l) :
    stripList l = l := by
  unfold stripList
  unfold dropLead
  rw [dropWhile_eq_self_of_headNS h1]
  have hrev : headNS l.reverse := by
    intro c hc
    rw [List.head?_reverse] at hc
    exact h2 c hc
  rw [dropWhile_eq_self_of_headNS hrev, List.reverse_reverse]

/-! ### Helper lemmas: the cleaned name is a fixed point -/

theorem map_lowerChar_fixed {l : List Char} (h : ∀ x ∈ l, lowerChar x = x) :
    l.map lowerChar = l := by
  have e := List.map_congr_left (f := lowerChar) (g := id) (by
    intro a ha
    rw [h a ha]
    rfl)
  rw [e, List.map_id]

theorem cleanList_chars_fixed (l : List Char) :
    ∀ x ∈ cleanList l, lowerChar x = x := by
  intro x hx
  rcases mem_collapseAux _ false hx with h0 | hmem
  · rw [h0]
    rfl
  · obtain ⟨y, _, rfl⟩ := List.mem_map.mp hmem
    exact lowerChar_idem y

theorem headNS_map_lower {l : List Char} (h : headNS l) :
    headNS (l.map lowerChar) := by
  intro d hd
  rw [List.head?_map] at hd
  cases hl : l.head? with
  | none => rw [hl] at hd; cases hd
  | some c =>
      rw [hl] at hd
      simp only [Option.map_some', Option.some.injEq] at hd
      rw [← hd, pyIsSpace_lowerChar]
      exact h c hl

theorem lastNS_map_lower {l : List Char} (h : lastNS l) :
    lastNS (l.map lowerChar) := by
  intro d hd
  rw [List.getLast?_map] at hd
  cases hl : l.getLast? with
  | none => rw [hl] at hd; cases hd
  | some c =>
      rw [hl] at hd
      simp only [Option.map_some', Option.some.injEq] at hd
      rw [← hd, pyIsSpace_lowerChar]
      exact h c hl

theorem cleanList_idem (l : List Char) :
    cleanList (cleanList l) = cleanList l := by
  have hm_head : headNS ((stripList l).map lowerChar) :=
    headNS_map_lower (headNS_stripList l)
  have hm_last : lastNS ((stripList l).map lowerChar) :=
    lastNS_map_lower (lastNS_stripList l)
  have hy_head : headNS (cleanList l) := headNS_collapseAux hm_head false
  have hy_last : lastNS (cleanList l) :=
    lastNS_collapseAux _ hm_last false
  have h1 : stripList (cleanList l) = cleanList l :=
    stripList_eq_self hy_head hy_last
  have h2 : (cleanList l).map lowerChar = cleanList l :=
    map_lowerChar_fixed (cleanList_chars_fixed l)
  show collapseAux false ((stripList (cleanList l)).map lowerChar) = cleanList l
  rw [h1, h2]
  exact collapseAux_false_collapse ((stripList l).map lowerChar) false

theorem cleanName_idem (s : String) :
    cleanName (cleanName s) = cleanName s := by
  show String.mk (cleanList (String.mk (cleanList s.toList)).toList) = _
  exact congrArg String.mk (cleanList_idem s.toList)

/-! ### Helper lemmas: the combine step -/

theorem coerceColumn_length {cs : List Cell} {vs : List Val}
    (h : coerceColumn cs = .ok vs) : vs.length = cs.length := by
  induction cs generalizing vs with
  | nil =>
      simp only [coerceColumn] at h
      cases h
      rfl
  | cons c cs ih =>
      simp only [coerceColumn] at h
      cases hc : coerceCell c with
      | none => rw [hc] at h; exact absurd h (by simp)
      | some v =>
          rw [hc] at h
          cases hr : coerceColumn cs with
          | error e => rw [hr] at h; exact absurd h (by simp [Except.map])
          | ok ws =>
              rw [hr] at h
              simp only [Except.map, Except.ok.injEq] at h
              cases h
              simp [ih hr]

theorem buildCRows_get?_qty :
    ∀ (rows : List Row) (qs vs : List Val),
      qs.length = rows.length → vs.length = rows.length → ∀ i : Nat,
      ((buildCRows rows qs vs).get? i).map (fun r => r.qty) = qs.get? i := by
  intro rows
  induction rows with
  | nil =>
      intro qs vs hq _ i
      cases qs with
      | nil => rfl
      | cons q qt => simp at hq
  | cons r rs ih =>
      intro qs vs hq hv i
      cases qs with
      | nil => simp at hq
      | cons q qt =>
          cases vs with
          | nil => simp at hv
          | cons v vt =>
              cases i with
              | zero => rfl
              | succ j =>
                  simpa [buildCRows] using
                    ih qt vt (by simpa using hq) (by simpa using hv) j

theorem buildCRows_get?_inv :
    ∀ (rows : List Row) (qs vs : List Val),
      qs.length = rows.length → vs.length = rows.length → ∀ i : Nat,
      ((buildCRows rows qs vs).get? i).map (fun r => r.inv) = vs.get? i := by
  intro rows
  induction rows with
  | nil =>
      intro qs vs hq hv i
      cases qs with
      | nil =>
          cases vs with
          | nil => rfl
          | cons v vt => simp at hv
      | cons q qt => simp at hq
  | cons r rs ih =>
      intro qs vs hq hv i
      cases qs with
      | nil => simp at hq
      | cons q qt =>
          cases vs with
          | nil => simp at hv
          | cons v vt =>
              cases i with
              | zero => rfl
              | succ j =>
                  simpa [buildCRows] using
                    ih qt vt (by simpa using hq) (by simpa using hv) j

theorem tableCombine_ok_cols {tables : List (List Row)} {out : List CRow}
    (h : tableCombine tables = .ok out) :
    ∃ qs vs,
      coerceColumn ((ffilledRows tables).map (fun r => r.quantity)) = .ok qs ∧
      coerceColumn ((ffilledRows tables).map (fun r => r.invoice)) = .ok vs ∧
      out = buildCRows (ffilledRows tables) qs vs := by
  simp only [tableCombine] at h
  cases hq : coerceColumn ((ffilledRows tables).map (fun r => r.quantity)) with
  | error e => rw [hq] at h; cases h
  | ok qs =>
      rw [hq] at h
      cases hv : coerceColumn ((ffilledRows tables).map (fun r => r.invoice)) with
      | error e => rw [hv] at h; cases h
      | ok vs =>
          rw [hv] at h
          simp only [Except.ok.injEq] at h
          exact ⟨qs, vs, rfl, rfl, h.symm⟩

theorem option_map_bind {α β γ : Type _} (o : Option α) (f : α → β)
    (g : β → Option γ) : (o.map f).bind g = o.bind (fun x => g (f x)) := by
  cases o <;> rfl

/-! ## Claim theorems -/

/-- C1: every value of the two designated numeric columns is coerced by:
convert to text, remove commas, remove no-break spaces, trim whitespace,
treat an empty result as "0", then parse as a float — so "1,234.50" gives
1234.5, a no-break-space-prefixed "500" gives 500.0, and "" gives 0.0 —
and a value whose cleaned-up form is not a valid number makes the whole
combine step fail with the offending value rather than silently producing
0. -/
theorem C1_numeric_coercion :
    coerceCell (some ("1,234.50")) = some (Val.fin (1234.5)) ∧
    coerceCell (some ("\u00A0500")) = some (Val.fin 500) ∧
    coerceCell (some ("")) = some (Val.fin 0) ∧
    coerceCell (some ("12,3x4")) = none ∧
    (∀ s : String, parseFloat (cleanupValue s) = none →
      coerceCell (some s) = none) ∧
    (∀ tables : List (List Row), ∀ r ∈ ffilledRows tables,
      (coerceCell r.quantity = none ∨ coerceCell r.invoice = none) →
      ∃ e, tableCombine tables = .error e) := by
  refine ⟨by with_unfolding_all rfl, by with_unfolding_all rfl,
    by with_unfolding_all rfl, by with_unfolding_all rfl, ?_, ?_⟩
  · intro s h
    exact h
  · intro tables r hr hc
    rcases hc with hq | hv
    · have hm : r.quantity ∈ (ffilledRows tables).map (fun r => r.quantity) :=
        List.mem_map_of_mem (fun r => r.quantity) hr
      obtain ⟨e, he⟩ := coerceColumn_error_of_mem hm hq
      exact ⟨e, by simp only [tableCombine, he]⟩
    · cases hq2 : coerceColumn ((ffilledRows tables).map (fun r => r.quantity)) with
      | error e => exact ⟨e, by simp only [tableCombine, hq2]⟩
      | ok qs =>
          have hm : r.invoice ∈ (ffilledRows tables).map (fun r => r.invoice) :=
            List.mem_map_of_mem (fun r => r.invoice) hr
          obtain ⟨e, he⟩ := coerceColumn_error_of_mem hm hv
          exact ⟨e, by simp only [tableCombine, hq2, he]⟩

/-- Witness for C1 at concrete inputs: "12,3x4" does not coerce and a table
holding it makes the combine step fail. -/
theorem C1_numeric_coercion_witness :
    coerceCell (some ("12,3x4")) = none ∧
    (∃ e, tableCombine tblBadQty = .error e) := by
  refine ⟨C1_numeric_coercion.2.2.2.1, ?_⟩
  exact C1_numeric_coercion.2.2.2.2.2 tblBadQty
    ⟨some ("1.1.1"), some ("12,3x4"), some ("5"), some ("USD"), some ("A"),
     some ("X")⟩
    (by decide) (Or.inl (by with_unfolding_all rfl))

/-- Counterexample to C2 as stated: a missing `quantity/mt` cell is coerced
to `NaN` (since `astype(str)` renders it as the string "nan"), not to 0.0. -/
theorem C2_missing_cell_counterexample :
    tableCombine tblMissingQty =
      .ok [⟨some ("1.1.1"), Val.nan, Val.fin 5, some ("USD"), some ("A"),
            some ("X")⟩] ∧
    Val.nan ≠ Val.fin 0 :=
  ⟨by with_unfolding_all rfl, by decide⟩

/-- C2 (amended): when TableCombiner succeeds, the two designated columns
hold exactly the float coercions of their cells — an empty-string cell
yields 0.0, but a missing cell yields `NaN`, not 0.0. -/
theorem C2_combined_columns_float :
    coerceCell none = some Val.nan ∧
    coerceCell (some ("")) = some (Val.fin 0) ∧
    (∀ (tables : List (List Row)) (out : List CRow),
      tableCombine tables = .ok out → ∀ i : Nat,
      (out.get? i).map (fun r => r.qty) =
        ((ffilledRows tables).get? i).bind (fun r => coerceCell r.quantity) ∧
      (out.get? i).map (fun r => r.inv) =
        ((ffilledRows tables).get? i).bind (fun r => coerceCell r.invoice)) := by
  refine ⟨by with_unfolding_all rfl, by with_unfolding_all rfl, ?_⟩
  intro tables out h i
  obtain ⟨qs, vs, hq, hv, rfl⟩ := tableCombine_ok_cols h
  have hql : qs.length = (ffilledRows tables).length := by
    simpa using coerceColumn_length hq
  have hvl : vs.length = (ffilledRows tables).length := by
    simpa using coerceColumn_length hv
  constructor
  · rw [buildCRows_get?_qty (ffilledRows tables) qs vs hql hvl i,
      coerceColumn_ok_get hq i, List.get?_eq_getElem?, List.getElem?_map,
      ← List.get?_eq_getElem?]
    exact option_map_bind _ _ _
  · rw [buildCRows_get?_inv (ffilledRows tables) qs vs hql hvl i,
      coerceColumn_ok_get hv i, List.get?_eq_getElem?, List.getElem?_map,
      ← List.get?_eq_getElem?]
    exact option_map_bind _ _ _

/-- Witness for C2 (amended) at a concrete table with a missing quantity
cell: the theorem applies and the resulting column value is `NaN`. -/
theorem C2_combined_columns_float_witness :
    (([⟨some ("1.1.1"), Val.nan, Val.fin 5, some ("USD"), some ("A"),
        some ("X")⟩] : List CRow).get? 0).map (fun r => r.qty) =
      ((ffilledRows tblMissingQty).get? 0).bind (fun r => coerceCell r.quantity) :=
  (C2_combined_columns_float.2.2 tblMissingQty
    [⟨some ("1.1.1"), Val.nan, Val.fin 5, some ("USD"), some ("A"),
      some ("X")⟩]
    (by with_unfolding_all rfl) 0).1

/-- C3: forward-fill of `job no` runs over the whole combined table in
final row order (the concatenation of all sheets), replacing each missing
value with the `job no` of the nearest preceding row that has one, and
leaving it missing when no preceding row has one (in particular for a
missing first row). -/
theorem C3_forward_fill (tables : List (List Row)) (i : Nat)
    (h : i < (combinedJobCol tables).length) :
    (ffilledRows tables).map (fun r => r.jobNo) = ffill (combinedJobCol tables) ∧
    (ffill (combinedJobCol tables)).get? i =
      some (((combinedJobCol tables).get ⟨i, h⟩).elim
        (lastNonMissing ((combinedJobCol tables).take i)) some) := by
  constructor
  · apply zipWith_jobNo
    show (ffillAux none (combinedJobCol tables)).length = _
    rw [ffillAux_length]
    unfold combinedJobCol
    rw [List.length_map]
  · show (ffillAux none (combinedJobCol tables)).get? i = _
    rw [ffillAux_get?, List.get?_eq_get h]
    rfl

/-- Witness for C3 at the two-sheet scenario: the second sheet's missing
`job no` inherits "1.1.1" from the first sheet across the sheet
boundary. -/
theorem C3_forward_fill_witness :
    (ffill (combinedJobCol tblTwoSheets)).get? 1 =
      some (((combinedJobCol tblTwoSheets).get ⟨1, by decide⟩).elim
        (lastNonMissing ((combinedJobCol tblTwoSheets).take 1)) some) ∧
    (ffill (combinedJobCol tblTwoSheets)).get? 1 = some (some ("1.1.1")) :=
  ⟨(C3_forward_fill tblTwoSheets 1 (by decide)).2, by decide⟩

/-- Counterexample to C4 as stated: the program groups by the RAW currency
and only renames the index labels afterwards, so the raw codes "usd" and
"USD" give two separate entries both labelled "USD" instead of one
combined total (the spec-side `invByCurSpec` normalizes before grouping
and gives the single total 30). -/
theorem C4_normalize_after_grouping_counterexample :
    invByCur rowsCaseCur = [(("USD"), Val.fin 20), (("USD"), Val.fin 10)] ∧
    invByCurSpec rowsCaseCur = [(("USD"), Val.fin 30)] ∧
    invByCur rowsCaseCur ≠ invByCurSpec rowsCaseCur := by
  have h1 : invByCur rowsCaseCur = [(("USD"), Val.fin 20), (("USD"), Val.fin 10)] := by
    with_unfolding_all rfl
  have h2 : invByCurSpec rowsCaseCur = [(("USD"), Val.fin 30)] := by
    with_unfolding_all rfl
  refine ⟨h1, h2, ?_⟩
  rw [h1, h2]
  intro h
  have hl := congrArg List.length h
  simp at hl

/-- C4 (amended): `total_qty` sums `quantity/mt` over all rows; the
per-currency invoice totals are grouped by the RAW currency value and the
resulting labels are then normalized (trim, uppercase), so each raw code
contributes an entry labelled with its normalized form holding the sum of
that raw code's rows (codes agreeing only after normalization stay as
separate duplicate-labelled entries); looking up a code that labels no
entry returns the defined default 0. -/
theorem C4_global_totals (rows : List CRow) :
    totalQty rows = aggSum (rows.map (fun r => r.qty)) ∧
    (∀ c ∈ rawCurrencies rows,
      (normCur c,
        aggSum ((rows.filter (fun r => r.currency = some c)).map (fun r => r.inv)))
        ∈ invByCur rows) ∧
    (∀ k : String, (∀ e ∈ invByCur rows, e.1 ≠ k) →
      seriesGet (invByCur rows) k (Val.fin 0) = [Val.fin 0]) := by
  refine ⟨rfl, ?_, ?_⟩
  · intro c hc
    exact List.mem_map_of_mem _ hc
  · intro k hk
    unfold seriesGet
    have he : (invByCur rows).filter (fun e => e.1 = k) = [] := by
      rw [List.filter_eq_nil_iff]
      intro e he2
      simpa using hk e he2
    rw [he]

/-- Witness for C4 (amended) at the case-colliding input: the raw code
"usd" contributes an entry labelled "USD", and looking up the absent code
"EGP" returns the default 0. -/
theorem C4_global_totals_witness :
    ((normCur ("usd"),
      aggSum ((rowsCaseCur.filter (fun r => r.currency = some ("usd"))).map
        (fun r => r.inv))) ∈ invByCur rowsCaseCur) ∧
    seriesGet (invByCur rowsCaseCur) ("EGP") (Val.fin 0) = [Val.fin 0] := by
  constructor
  · refine (C4_global_totals rowsCaseCur).2.1 ("usd") ?_
    have hr : rawCurrencies rowsCaseCur = [("USD"), ("usd")] := by
      with_unfolding_all rfl
    rw [hr]
    exact List.mem_cons_of_mem _ (List.mem_singleton.mpr rfl)
  · refine (C4_global_totals rowsCaseCur).2.2 ("EGP") ?_
    have h1 : invByCur rowsCaseCur =
        [(("USD"), Val.fin 20), (("USD"), Val.fin 10)] := by
      with_unfolding_all rfl
    rw [h1]
    intro e he
    rcases List.mem_cons.mp he with h0 | he2
    · rw [h0]
      decide
    · rcases List.mem_cons.mp he2 with h0 | he3
      · rw [h0]
        decide
      · cases he3

/-- Counterexample to C5 as stated: a grouped row with a non-blank currency
whose two aggregated totals are both NaN (here produced by summing the
floats of "inf" and "-inf") is removed by the final
`dropna(subset=..., how='all')`, so not every non-artifact grouped row is
kept. -/
theorem C5_blank_zero_exclusion_counterexample :
    tableCombine tblOppositeInf = .ok rowsOppositeInf ∧
    summaryGrouped rowsOppositeInf = [⟨("A"), ("USD"), Val.nan, Val.nan⟩] ∧
    artifactRow ⟨("A"), ("USD"), Val.nan, Val.nan⟩ = false ∧
    summarize rowsOppositeInf = [] := by
  refine ⟨by with_unfolding_all rfl, by with_unfolding_all rfl, ?_, ?_⟩
  · decide
  · with_unfolding_all rfl

/-- C5 (amended): the summary never contains a row whose currency is blank
after trimming while both totals are exactly 0; every other grouped row is
kept unless both of its aggregated totals are NaN (possible only when a
column sums opposite infinities), in which case the final dropna removes
it. -/
theorem C5_blank_zero_exclusion (rows : List CRow) :
    (∀ s ∈ summarize rows,
      ¬(pyStrip s.currency = ("") ∧ s.qty = Val.fin 0 ∧ s.inv = Val.fin 0)) ∧
    (∀ g ∈ summaryGrouped rows, artifactRow g = false →
      (g.qty.isNan && g.inv.isNan) = false → g ∈ summarize rows) := by
  constructor
  · intro s hs hcontra
    obtain ⟨hc1, hc2, hc3⟩ := hcontra
    have h1 := (List.mem_filter.mp (List.mem_filter.mp hs).1).2
    simp [artifactRow, hc1, hc2, hc3] at h1
  · intro g hg hart hnan
    refine List.mem_filter.mpr ⟨List.mem_filter.mpr ⟨hg, ?_⟩, ?_⟩
    · rw [hart]
      rfl
    · rw [hnan]
      rfl

/-- Witness for C5 (amended) at a concrete table: the single grouped row is
neither an artifact nor NaN-totalled, so it appears in the summary. -/
theorem C5_blank_zero_exclusion_witness :
    (⟨("A"), ("USD"), Val.fin 1, Val.fin 2⟩ : SRow) ∈ summarize rowsOneUSD := by
  have hg : summaryGrouped rowsOneUSD =
      [⟨("A"), ("USD"), Val.fin 1, Val.fin 2⟩] := by
    with_unfolding_all rfl
  refine (C5_blank_zero_exclusion rowsOneUSD).2 _ ?_ ?_ ?_
  · rw [hg]
    exact List.mem_singleton.mpr rfl
  · decide
  · rfl

/-- Counterexample to C6 as stated: on a four-row grid the program's
normalization promotes the grid's THIRD row (after the column drop) to
column names and starts the data at the fourth row, while the claim
(`normalizeSheetSpec`) predicts the second row as header. -/
theorem C6_header_promotion_counterexample :
    normalizeSheet gridFourRows ("X") =
      .ok ⟨[some ("C"), some ("client")], [[some ("D"), some ("X")]]⟩ ∧
    normalizeSheetSpec gridFourRows ("X") =
      .ok ⟨[some ("B"), some ("client")],
           [[some ("C"), some ("X")], [some ("D"), some ("X")]]⟩ ∧
    normalizeSheet gridFourRows ("X") ≠ normalizeSheetSpec gridFourRows ("X") := by
  have h1 : normalizeSheet gridFourRows ("X") =
      .ok ⟨[some ("C"), some ("client")], [[some ("D"), some ("X")]]⟩ := by rfl
  have h2 : normalizeSheetSpec gridFourRows ("X") =
      .ok ⟨[some ("B"), some ("client")],
           [[some ("C"), some ("X")], [some ("D"), some ("X")]]⟩ := by rfl
  refine ⟨h1, h2, ?_⟩
  rw [h1, h2]
  intro h
  simp only [Except.ok.injEq, NTable.mk.injEq] at h
  have hcol := h.1
  simp at hcol

/-- C6 (amended): exactly the first column and the first THREE rows of the
verbatim grid are consumed (the first row by the Excel loader's default
header, the second dropped as junk, the third promoted to column names),
and the third row's values after the column drop become the column names,
followed by the synthetic `client` column. -/
theorem C6_three_rows_stripped (grid : Grid) (name : String) (t : NTable)
    (h : normalizeSheet grid name = .ok t) :
    3 ≤ grid.length ∧
    t.columns = ((grid.get? 2).getD []).drop 1 ++ [some ("client")] ∧
    t.rows = (((grid.drop 3).map (fun r => r.drop 1)).filter
        (fun r => !(r.all (fun c => c.isNone)))).map
      (fun r => r ++ [some name]) := by
  cases grid with
  | nil => simp [normalizeSheet] at h
  | cons r0 data =>
      cases r0 with
      | nil => simp [normalizeSheet] at h
      | cons c0 cr =>
          cases data with
          | nil => simp [normalizeSheet] at h
          | cons d1 rest =>
              cases rest with
              | nil => simp [normalizeSheet] at h
              | cons d2 body =>
                  simp only [normalizeSheet, List.map_cons, Except.ok.injEq] at h
                  rw [← h]
                  refine ⟨by simp, rfl, rfl⟩

/-- Witness for C6 (amended) at the four-row grid. -/
theorem C6_three_rows_stripped_witness :
    3 ≤ gridFourRows.length ∧
    (⟨[some ("C"), some ("client")], [[some ("D"), some ("X")]]⟩ : NTable).columns =
      ((gridFourRows.get? 2).getD []).drop 1 ++ [some ("client")] := by
  have h := C6_three_rows_stripped gridFourRows ("X")
    ⟨[some ("C"), some ("client")], [[some ("D"), some ("X")]]⟩ (by rfl)
  exact ⟨h.1, h.2.1⟩

/-- C7: the clients-by-job-number pivot takes each client's first combined
row bearing a `job no` (every client with such a row is represented in the
deduplication), keeps only identifiers with exactly two dot separators,
groups client names by the identifier's middle segment, sorts the grouping
keys ascending, labels one column per key, and each column holds that
key's client list padded with empty placeholders to the height of the
tallest column. -/
theorem C7_first_job_pivot (rows : List CRow) :
    ((monthKeys rows).Pairwise (fun a b => a ≤ b)) ∧
    (∀ r ∈ firstJobs rows,
      ((fjRows rows).filter (fun x => x.client = r.client)).head? = some r ∧
      countDots (jobStr r) = 2) ∧
    (∀ r ∈ fjRows rows,
      ∃ d ∈ dedupByClient [] (fjRows rows), d.client = r.client) ∧
    pivotColNames rows = (monthKeys rows).map (fun m => ("Job No.") ++ m) ∧
    (∀ (j : Nat) (hj : j < (monthKeys rows).length),
      pivotColumn rows j =
        ((monthGroup rows ((monthKeys rows).get ⟨j, hj⟩)).map some) ++
          List.replicate
            (maxLen ((monthKeys rows).map (monthGroup rows)) -
              (monthGroup rows ((monthKeys rows).get ⟨j, hj⟩)).length) none) := by
  refine ⟨?_, ?_, ?_, rfl, ?_⟩
  · show (sortBy strLe (((firstJobs rows).map monthOf).dedup)).Pairwise (fun a b => a ≤ b)
    have hp := pairwise_sortBy strLe
      (fun a b hab => by
        show decide (b ≤ a) = true
        have hab2 : decide (a ≤ b) = false := hab
        rcases le_total a b with h | h
        · rw [decide_eq_true h] at hab2
          cases hab2
        · exact decide_eq_true h)
      (fun a b c hab hbc => by
        show decide (a ≤ c) = true
        have h1 : a ≤ b := of_decide_eq_true hab
        have h2 : b ≤ c := of_decide_eq_true hbc
        exact decide_eq_true (le_trans h1 h2))
      (((firstJobs rows).map monthOf).dedup)
    exact hp.imp (fun h => of_decide_eq_true h)
  · intro r hr
    have hr2 : r ∈ (dedupByClient [] (fjRows rows)).filter
        (fun x => decide (countDots (jobStr x) = 2)) := hr
    have h2 := List.mem_filter.mp hr2
    exact ⟨(dedupByClient_head? h2.1).2, of_decide_eq_true h2.2⟩
  · intro r hr
    exact dedupByClient_complete (fjRows rows) [] r hr (List.not_mem_nil _)
  · intro j hj
    have hj2 : j < ((monthKeys rows).map (monthGroup rows)).length := by
      rw [List.length_map]
      exact hj
    have hcolj : ((monthKeys rows).map (monthGroup rows)).get? j =
        some (monthGroup rows ((monthKeys rows).get ⟨j, hj⟩)) := by
      rw [List.get?_eq_getElem?, List.getElem?_map, ← List.get?_eq_getElem?,
        List.get?_eq_get hj]
      rfl
    have hmem : monthGroup rows ((monthKeys rows).get ⟨j, hj⟩) ∈
        (monthKeys rows).map (monthGroup rows) :=
      List.mem_map_of_mem _ (List.get_mem _ _ _)
    have hdrop : pivotDf rows = pivotRows rows := by
      unfold pivotDf
      apply List.filter_eq_self.mpr
      intro rrow hrrow
      obtain ⟨i, hi, hre⟩ := mem_zipLongest hrrow
      obtain ⟨c, hcmem, hclen⟩ := exists_lt_of_lt_maxLen hi
      have hcell : c.get? i ∈
          ((monthKeys rows).map (monthGroup rows)).map (fun c => c.get? i) :=
        List.mem_map_of_mem _ hcmem
      rw [← hre] at hcell
      cases hall : (rrow.all (fun c => c.isNone)) with
      | false => rfl
      | true =>
          exfalso
          have h3 := List.all_eq_true.mp hall _ hcell
          rw [List.get?_eq_get hclen] at h3
          simp at h3
    have hcolget : pivotColumn rows j =
        (List.range (maxLen ((monthKeys rows).map (monthGroup rows)))).map
          (fun i => (monthGroup rows ((monthKeys rows).get ⟨j, hj⟩)).get? i) := by
      unfold pivotColumn
      rw [hdrop]
      unfold pivotRows zipLongest
      rw [List.map_map]
      refine List.map_congr_left ?_
      intro i _
      show ((((monthKeys rows).map (monthGroup rows)).map
          (fun c => c.get? i)).get? j).getD none = _
      rw [List.get?_eq_getElem?, List.getElem?_map, ← List.get?_eq_getElem?,
        hcolj]
      rfl
    rw [hcolget, range_map_get? _ _ (length_le_maxLen hmem)]

/-- Witness for C7 at the spec section-8 scenario (job ids "3.07.1",
"5.09.2", "9.07.3"): keys are "07" and "09" and the "09" column is the
client list ["c2"] padded with one placeholder. -/
theorem C7_first_job_pivot_witness :
    monthKeys rowsPivot = [("07"), ("09")] ∧
    pivotColumn rowsPivot 1 =
      ((monthGroup rowsPivot
          ((monthKeys rowsPivot).get ⟨1, by with_unfolding_all decide⟩)).map some) ++
        List.replicate
          (maxLen ((monthKeys rowsPivot).map (monthGroup rowsPivot)) -
            (monthGroup rowsPivot
              ((monthKeys rowsPivot).get ⟨1, by with_unfolding_all decide⟩)).length) none ∧
    pivotColumn rowsPivot 1 = [some (some ("c2")), none] := by
  refine ⟨by with_unfolding_all rfl,
    (C7_first_job_pivot rowsPivot).2.2.2.2 1 (by with_unfolding_all decide),
    by with_unfolding_all rfl⟩

/-- C8: the column-name cleaner (trim, lowercase, collapse internal
whitespace runs) is idempotent on tables — applying it twice gives the
same column names as applying it once — and it leaves cell values
unchanged. -/
theorem C8_column_cleaner_idempotent (t : NTable) :
    cleanColumns (cleanColumns t) = cleanColumns t ∧
    (cleanColumns t).rows = t.rows := by
  constructor
  · unfold cleanColumns
    simp only [NTable.mk.injEq, List.map_map, and_true]
    refine List.map_congr_left ?_
    intro a _
    show Option.map cleanName (Option.map cleanName a) = Option.map cleanName a
    cases a with
    | none => rfl
    | some s =>
        show some (cleanName (cleanName s)) = some (cleanName s)
        rw [cleanName_idem]
  · rfl

/-- C9: a failure while normalizing one sheet never aborts the run — the
error is reported, that sheet is excluded, and the remaining sheets are
still processed; in particular a grid with fewer than 2 rows always fails
normalization (recoverably). -/
theorem C9_sheet_failure_recoverable (pre rest : List (String × Grid))
    (n : String) (g : Grid) (e : String)
    (h : normalizeSheet g n = .error e) :
    processSheets (pre ++ (n, g) :: rest) =
      ((processSheets pre).1 ++ (processSheets rest).1,
       (processSheets pre).2 ++ sheetErrMsg n e :: (processSheets rest).2) ∧
    (∀ (grid : Grid) (name : String), grid.length < 2 →
      ∃ e2, normalizeSheet grid name = .error e2) := by
  constructor
  · rw [processSheets_append]
    have e1 : processSheets ((n, g) :: rest) =
        ((processSheets rest).1, sheetErrMsg n e :: (processSheets rest).2) := by
      simp [processSheets, h]
    rw [e1]
  · intro grid name hlen
    cases grid with
    | nil => exact ⟨_, rfl⟩
    | cons r0 data =>
        cases data with
        | nil =>
            cases r0 with
            | nil => exact ⟨_, rfl⟩
            | cons x xs => exact ⟨_, rfl⟩
        | cons d1 rest2 =>
            exfalso
            simp only [List.length_cons] at hlen
            omega

/-- Witness for C9 at a concrete sheet sequence: the middle one-row sheet
fails, its banner is recorded, and both surrounding sheets are still
processed. -/
theorem C9_sheet_failure_recoverable_witness :
    processSheets ([(("S1"), gridFourRows)] ++
        (("S2"), [[some ("x")]]) :: [(("S3"), gridFourRows)]) =
      ((processSheets [(("S1"), gridFourRows)]).1 ++
         (processSheets [(("S3"), gridFourRows)]).1,
       (processSheets [(("S1"), gridFourRows)]).2 ++
         sheetErrMsg ("S2") ("drop(index=0): label 0 not found") ::
           (processSheets [(("S3"), gridFourRows)]).2) ∧
    (processSheets sheetsMixed).1.length = 2 ∧
    (processSheets sheetsMixed).2.length = 1 := by
  refine ⟨(C9_sheet_failure_recoverable [(("S1"), gridFourRows)]
    [(("S3"), gridFourRows)] ("S2") [[some ("x")]]
    ("drop(index=0): label 0 not found") (by rfl)).1, by decide, by decide⟩

/-- C10: rows whose currency is missing are dropped by the grouping of both
the client/currency summary and the per-currency invoice totals (deleting
them changes neither), while their `quantity/mt` values still feed the
global quantity total (which splits as the sum over currency-bearing rows
plus the sum over currency-missing rows). -/
theorem C10_missing_currency_rows (rows : List CRow) :
    summarize (rows.filter (fun r => r.currency.isSome)) = summarize rows ∧
    invByCur (rows.filter (fun r => r.currency.isSome)) = invByCur rows ∧
    totalQty rows =
      vadd (totalQty (rows.filter (fun r => r.currency.isSome)))
        (totalQty (rows.filter (fun r => !r.currency.isSome))) := by
  refine ⟨?_, ?_, ?_⟩
  · have hkeys : summaryKeys (rows.filter (fun r => r.currency.isSome)) =
        summaryKeys rows := by
      unfold summaryKeys
      rw [filterMap_filter_of_none (fun r => r.currency.isSome) rowKey
        (fun a ha => rowKey_none_of_currency_none ha) rows]
    have hgrp : summaryGrouped (rows.filter (fun r => r.currency.isSome)) =
        summaryGrouped rows := by
      unfold summaryGrouped
      rw [hkeys]
      refine List.map_congr_left ?_
      intro k _
      rw [filter_filter_of_imp (fun r => r.currency.isSome)
        (fun r => decide (rowKey r = some k))
        (fun a ha => currency_isSome_of_rowKey (of_decide_eq_true ha)) rows]
    unfold summarize
    rw [hgrp]
  · have hcur : (rows.filter (fun r => r.currency.isSome)).filterMap
        (fun r => r.currency) = rows.filterMap (fun r => r.currency) := by
      refine filterMap_filter_of_none (fun r => r.currency.isSome)
        (fun r => r.currency) ?_ rows
      intro a ha
      cases hc : a.currency with
      | none => exact hc
      | some c =>
          exfalso
          have ha2 : Option.isSome a.currency = false := ha
          rw [hc] at ha2
          cases ha2
    unfold invByCur rawCurrencies
    rw [hcur]
    refine List.map_congr_left ?_
    intro c _
    rw [filter_filter_of_imp (fun r => r.currency.isSome)
      (fun r => decide (r.currency = some c))
      (fun a ha => by
        have h2 : a.currency = some c := of_decide_eq_true ha
        show Option.isSome a.currency = true
        rw [h2]
        rfl) rows]
  · have hperm :
        ((rows.filter (fun r => r.currency.isSome)).map (fun r => r.qty) ++
          (rows.filter (fun r => !r.currency.isSome)).map (fun r => r.qty)).Perm
          (rows.map (fun r => r.qty)) := by
      rw [← List.map_append]
      exact (List.filter_append_perm _ rows).map (fun r => r.qty)
    unfold totalQty
    rw [← aggSum_perm hperm, aggSum_append]

end CU
